import Mathlib

/-!
Verification of the message tracker from `src/network/message_tracker.rs`
and its message type from `src/network/message.rs`.

The tracker (`MessageStore`) keeps a FIFO queue of messages bounded by
`fifo_size`, together with a hash-map `index` from message id to the
message's current position in the queue.  We embed the two Rust files
shallowly: the `VecDeque<Message>` becomes a `List Message` (front of the
deque = head of the list), the `HashMap<String, usize>` becomes an
association list with no duplicate keys, and the two `panic!` sites become
`Except.error` results so that their (un)reachability can be stated.
-/

/-- `Message` from `src/network/message.rs`: id, originating peer, payload. -/
structure Message where
  id : String
  peer_id : String
  data : List Nat
deriving DecidableEq, Repr

/-- `HashMap::get` on the association-list model: first binding of the key. -/
def hmGet : List (String × Nat) → String → Option Nat
  | [], _ => none
  | (k', v) :: rest, k => if k' = k then some v else hmGet rest k

/-- `HashMap::insert`: replace the binding of the key in place, or add one. -/
def hmInsert : List (String × Nat) → String → Nat → List (String × Nat)
  | [], k, v => [(k, v)]
  | (k', v') :: rest, k, v =>
      if k' = k then (k, v) :: rest else (k', v') :: hmInsert rest k v

/-- `HashMap::remove`: drop the binding of the key. -/
def hmRemove : List (String × Nat) → String → List (String × Nat)
  | [], _ => []
  | (k', v') :: rest, k => if k' = k then rest else (k', v') :: hmRemove rest k

/-- `MessageStore`: the FIFO queue, the id → position cache, the capacity. -/
structure MessageStore where
  queue : List Message
  index : List (String × Nat)
  fifo_size : Nat
deriving DecidableEq, Repr

/-- `MessageStore::new`. -/
def MessageStore.new (fifo_size : Nat) : MessageStore :=
  { queue := [], index := [], fifo_size := fifo_size }

/-- The loop body of `MessageStore::update_indices`: for each message of
`msgs` (the queue with `skip` elements skipped), insert `id ↦ index + skip`,
where `p` starts at `skip`. -/
def insertIndices : List (String × Nat) → List Message → Nat → List (String × Nat)
  | idx, [], _ => idx
  | idx, m :: rest, p => insertIndices (hmInsert idx m.id p) rest (p + 1)

/-- `MessageStore::update_indices`. -/
def MessageStore.update_indices (s : MessageStore) (skip : Nat) : MessageStore :=
  { s with index := insertIndices s.index (s.queue.drop skip) skip }

/-- `MessageStore::get` (`MessageTracker` impl).  The two panics — the
out-of-bounds `self.queue[queue_index]` indexing and the
`panic!("Bad cache value for message: {id}")` on an id mismatch — are
modelled as `Except.error`. -/
def MessageStore.get (s : MessageStore) (id : String) : Except String (Option Message) :=
  match hmGet s.index id with
  | none => Except.ok none
  | some queue_index =>
      match s.queue[queue_index]? with
      | none => Except.error "index out of bounds"
      | some m =>
          if m.id ≠ id then Except.error "Bad cache value for message"
          else Except.ok (some m)

/-- `MessageStore::add` (`MessageTracker` impl).  The duplicate check is
`self.exists(&message_id)`, i.e. `self.get(id).is_some()`, so a panic inside
`get` propagates.  On overflow the front is popped, its id removed from the
index, and `update_indices(0)` rebuilds every position; otherwise the new
message's position `queue.len() - 1` is inserted. -/
def MessageStore.add (s : MessageStore) (message : Message) : Except String MessageStore :=
  match s.get message.id with
  | Except.error e => Except.error e
  | Except.ok (some _) => Except.ok s
  | Except.ok none =>
      let q := s.queue ++ [message]
      if q.length > s.fifo_size then
        match q with
        | [] => Except.ok { s with queue := q }
        | removed_message :: rest =>
            Except.ok (MessageStore.update_indices
              { queue := rest, index := hmRemove s.index removed_message.id,
                fifo_size := s.fifo_size } 0)
      else
        Except.ok { queue := q, index := hmInsert s.index message.id (q.length - 1),
                    fifo_size := s.fifo_size }

/-- `MessageStore::delete` (`MessageTracker` impl).  `self.index.remove(id)`
both returns the stored position and removes the binding; a failing
`self.queue.remove(queue_index)` would hit `panic!("It should never happen")`,
modelled as `Except.error`. -/
def MessageStore.delete (s : MessageStore) (id : String) :
    Except String (Option Message × MessageStore) :=
  match hmGet s.index id with
  | none => Except.ok (none, s)
  | some queue_index =>
      let s1 : MessageStore := { s with index := hmRemove s.index id }
      match s1.queue[queue_index]? with
      | none => Except.error "It should never happen"
      | some removed_message =>
          Except.ok (some removed_message,
            MessageStore.update_indices
              { s1 with queue := s1.queue.eraseIdx queue_index } queue_index)

/-- `MessageStore::get_all` (`MessageTracker` impl): the queue, front first. -/
def MessageStore.get_all (s : MessageStore) : List Message :=
  s.queue

/-- Run a sequence of `add` calls, left to right, propagating panics. -/
def addAll (s : MessageStore) : List Message → Except String MessageStore
  | [] => Except.ok s
  | m :: rest =>
      match s.add m with
      | Except.error e => Except.error e
      | Except.ok s' => addAll s' rest

/-- The ids of the queued messages, in queue order. -/
def idsOf (q : List Message) : List String :=
  q.map Message.id

/-- Position of the (first) message with id `k` in a queue. -/
def posOf (k : String) : List Message → Option Nat
  | [] => none
  | m :: rest => if m.id = k then some 0 else (posOf k rest).map (· + 1)

/-- The structural invariants of a tracker state: duplicate-free queue,
duplicate-free index keys, the index is exactly the id → position map of the
queue, and the queue respects the capacity. -/
structure TrackerInv (s : MessageStore) : Prop where
  qnodup : (idsOf s.queue).Nodup
  knodup : (s.index.map Prod.fst).Nodup
  corr : ∀ k, hmGet s.index k = posOf k s.queue
  cap : s.queue.length ≤ s.fifo_size

/-- States reachable from a freshly constructed tracker by successful public
operations (`get` and `get_all` do not change the state). -/
inductive Reachable : MessageStore → Prop where
  | new_tracker (n : Nat) : Reachable (MessageStore.new n)
  | add_step {s s' : MessageStore} (m : Message) :
      Reachable s → s.add m = Except.ok s' → Reachable s'
  | delete_step {s s' : MessageStore} (id : String) (r : Option Message) :
      Reachable s → s.delete id = Except.ok (r, s') → Reachable s'

/-- Extract the state of a successful run (used to build concrete states). -/
def getOk : Except String MessageStore → MessageStore
  | Except.ok s => s
  | Except.error _ => MessageStore.new 0

/-- A concrete message used in the witnesses. -/
def mkMsg (n : Nat) : Message :=
  { id := toString n, peer_id := "peerA", data := [0, 1, 1] }

/-- Concrete run: one message added to a capacity-5 tracker. -/
def wit5 : MessageStore :=
  getOk ((MessageStore.new 5).add (mkMsg 0))

/-- The six distinct messages of the overflow-by-one scenario. -/
def witMsgs6 : List Message :=
  (List.range 6).map mkMsg

/-- Concrete run: six distinct adds into a capacity-5 tracker. -/
def wit6 : MessageStore :=
  getOk (addAll (MessageStore.new 5) witMsgs6)

/-- Nine distinct messages for the eviction scenario. -/
def witMsgs9 : List Message :=
  (List.range 9).map mkMsg

/-- Concrete run: two adds into a capacity-0 tracker. -/
def wit0 : MessageStore :=
  getOk (addAll (MessageStore.new 0) [mkMsg 0, mkMsg 1])

/-! ### Association-list (HashMap) lemmas -/

theorem hmGet_hmInsert (idx : List (String × Nat)) (k : String) (v : Nat) (k' : String) :
    hmGet (hmInsert idx k v) k' = if k' = k then some v else hmGet idx k' := by
  induction idx with
  | nil =>
      by_cases h : k' = k
      · simp [hmInsert, hmGet, h]
      · simp [hmInsert, hmGet, h, Ne.symm h]
  | cons p rest ih =>
      obtain ⟨k0, v0⟩ := p
      by_cases h0 : k0 = k
      · subst h0
        by_cases h1 : k' = k0
        · simp [hmInsert, hmGet, h1]
        · simp [hmInsert, hmGet, h1, Ne.symm h1]
      · by_cases h1 : k' = k
        · subst h1
          simp [hmInsert, hmGet, h0, ih]
        · simp [hmInsert, hmGet, h0, h1, ih]

theorem mem_keys_hmInsert (idx : List (String × Nat)) (k : String) (v : Nat) (k' : String) :
    k' ∈ (hmInsert idx k v).map Prod.fst ↔ k' = k ∨ k' ∈ idx.map Prod.fst := by
  induction idx with
  | nil => simp [hmInsert]
  | cons p rest ih =>
      obtain ⟨k0, v0⟩ := p
      by_cases h0 : k0 = k
      · subst h0
        simp [hmInsert]
      · simp only [hmInsert, if_neg h0, List.map_cons, List.mem_cons, ih]
        tauto

theorem knodup_hmInsert (idx : List (String × Nat)) (k : String) (v : Nat)
    (h : (idx.map Prod.fst).Nodup) : ((hmInsert idx k v).map Prod.fst).Nodup := by
  induction idx with
  | nil => simp [hmInsert]
  | cons p rest ih =>
      obtain ⟨k0, v0⟩ := p
      simp only [List.map_cons, List.nodup_cons] at h
      by_cases h0 : k0 = k
      · subst h0
        simpa [hmInsert] using h
      · simp only [hmInsert, if_neg h0, List.map_cons, List.nodup_cons]
        refine ⟨?_, ih h.2⟩
        rw [mem_keys_hmInsert]
        rintro (rfl | hmem)
        · exact h0 rfl
        · exact h.1 hmem

theorem keys_hmRemove_sublist (idx : List (String × Nat)) (k : String) :
    List.Sublist ((hmRemove idx k).map Prod.fst) (idx.map Prod.fst) := by
  induction idx with
  | nil => simp [hmRemove]
  | cons p rest ih =>
      obtain ⟨k0, v0⟩ := p
      by_cases h0 : k0 = k
      · simp only [hmRemove, if_pos h0, List.map_cons]
        exact List.Sublist.cons _ (List.Sublist.refl _)
      · simp only [hmRemove, if_neg h0, List.map_cons]
        exact List.Sublist.cons₂ _ ih

theorem hmGet_hmRemove_ne (idx : List (String × Nat)) (k k' : String) (h : k' ≠ k) :
    hmGet (hmRemove idx k) k' = hmGet idx k' := by
  induction idx with
  | nil => simp [hmRemove]
  | cons p rest ih =>
      obtain ⟨k0, v0⟩ := p
      by_cases h0 : k0 = k
      · subst h0
        simp [hmRemove, hmGet, Ne.symm h]
      · simp only [hmRemove, if_neg h0, hmGet]
        by_cases h1 : k0 = k' <;> simp [h1, ih]

theorem hmGet_eq_none_iff (idx : List (String × Nat)) (k : String) :
    hmGet idx k = none ↔ k ∉ idx.map Prod.fst := by
  induction idx with
  | nil => simp [hmGet]
  | cons p rest ih =>
      obtain ⟨k0, v0⟩ := p
      by_cases h0 : k0 = k
      · subst h0
        simp [hmGet]
      · simp [hmGet, h0, ih, Ne.symm h0]

theorem hmGet_hmRemove_self (idx : List (String × Nat)) (k : String)
    (h : (idx.map Prod.fst).Nodup) : hmGet (hmRemove idx k) k = none := by
  induction idx with
  | nil => simp [hmRemove, hmGet]
  | cons p rest ih =>
      obtain ⟨k0, v0⟩ := p
      simp only [List.map_cons, List.nodup_cons] at h
      by_cases h0 : k0 = k
      · subst h0
        simp only [hmRemove, if_pos rfl]
        rw [hmGet_eq_none_iff]
        exact h.1
      · simp only [hmRemove, if_neg h0, hmGet, if_neg h0]
        exact ih h.2

/-! ### `posOf` lemmas -/

theorem posOf_eq_none_iff (k : String) (l : List Message) :
    posOf k l = none ↔ k ∉ idsOf l := by
  induction l with
  | nil => simp [posOf, idsOf]
  | cons m rest ih =>
      simp only [posOf, idsOf, List.map_cons, List.mem_cons]
      by_cases h : m.id = k
      · simp [h]
      · cases hp : posOf k rest with
        | none =>
            have := ih.mp hp
            simp only [idsOf] at this
            simp [h, Ne.symm h, this]
        | some i =>
            have hk : k ∈ idsOf rest := by
              by_contra hc
              rw [ih.mpr hc] at hp
              exact Option.noConfusion hp
            simp only [idsOf] at hk
            simp [h, Ne.symm h, hk]

theorem posOf_append_some (k : String) (l1 l2 : List Message) (i : Nat)
    (h : posOf k l1 = some i) : posOf k (l1 ++ l2) = some i := by
  induction l1 generalizing i with
  | nil => exact Option.noConfusion h
  | cons m rest ih =>
      rw [List.cons_append]
      simp only [posOf] at h ⊢
      by_cases hm : m.id = k
      · simpa [hm] using h
      · rw [if_neg hm] at h ⊢
        cases hp : posOf k rest with
        | none => rw [hp] at h; exact Option.noConfusion h
        | some j =>
            rw [hp, Option.map_some'] at h
            injection h with h
            subst h
            rw [ih j hp, Option.map_some']

theorem posOf_append_none (k : String) (l1 l2 : List Message)
    (h : posOf k l1 = none) : posOf k (l1 ++ l2) = (posOf k l2).map (· + l1.length) := by
  induction l1 with
  | nil => cases hp : posOf k l2 <;> simp [hp]
  | cons m rest ih =>
      rw [List.cons_append]
      simp only [posOf] at h ⊢
      by_cases hm : m.id = k
      · rw [if_pos hm] at h; exact Option.noConfusion h
      · rw [if_neg hm] at h ⊢
        have hr : posOf k rest = none := by
          cases hp : posOf k rest with
          | none => rfl
          | some j => rw [hp] at h; exact Option.noConfusion h
        cases hp : posOf k l2 with
        | none => simp [ih hr, hp]
        | some j =>
            simp only [ih hr, hp, Option.map_some', List.length_cons]
            congr 1

theorem posOf_lt_length (k : String) (l : List Message) (i : Nat)
    (h : posOf k l = some i) : i < l.length := by
  induction l generalizing i with
  | nil => exact Option.noConfusion h
  | cons m rest ih =>
      simp only [posOf] at h
      by_cases hm : m.id = k
      · rw [if_pos hm] at h
        injection h with h
        subst h
        simp
      · rw [if_neg hm] at h
        cases hp : posOf k rest with
        | none => rw [hp] at h; exact Option.noConfusion h
        | some j =>
            rw [hp, Option.map_some'] at h
            injection h with h
            subst h
            have := ih j hp
            simp only [List.length_cons]
            omega

theorem posOf_getElem? (k : String) (l : List Message) (i : Nat)
    (h : posOf k l = some i) : ∃ m, l[i]? = some m ∧ m.id = k := by
  induction l generalizing i with
  | nil => exact Option.noConfusion h
  | cons m rest ih =>
      simp only [posOf] at h
      by_cases hm : m.id = k
      · rw [if_pos hm] at h
        injection h with h
        subst h
        exact ⟨m, by simp, hm⟩
      · rw [if_neg hm] at h
        cases hp : posOf k rest with
        | none => rw [hp] at h; exact Option.noConfusion h
        | some j =>
            rw [hp, Option.map_some'] at h
            injection h with h
            subst h
            obtain ⟨m', hm', hid⟩ := ih j hp
            exact ⟨m', by simpa using hm', hid⟩

theorem posOf_take (k : String) (l : List Message) (i : Nat)
    (h : posOf k l = some i) : posOf k (l.take i) = none := by
  induction l generalizing i with
  | nil => exact Option.noConfusion h
  | cons m rest ih =>
      simp only [posOf] at h
      by_cases hm : m.id = k
      · rw [if_pos hm] at h
        injection h with h
        subst h
        simp [posOf]
      · rw [if_neg hm] at h
        cases hp : posOf k rest with
        | none => rw [hp] at h; exact Option.noConfusion h
        | some j =>
            rw [hp, Option.map_some'] at h
            injection h with h
            subst h
            simp [List.take_succ_cons, posOf, hm, ih j hp]

theorem getElem?_posOf (l : List Message) (i : Nat) (m : Message)
    (hnd : (idsOf l).Nodup) (h : l[i]? = some m) : posOf m.id l = some i := by
  induction l generalizing i with
  | nil => exact Option.noConfusion h
  | cons m0 rest ih =>
      simp only [idsOf, List.map_cons, List.nodup_cons] at hnd
      cases i with
      | zero =>
          rw [List.getElem?_cons_zero] at h
          injection h with h
          subst h
          simp [posOf]
      | succ j =>
          rw [List.getElem?_cons_succ] at h
          have hmem : m.id ∈ rest.map Message.id :=
            List.mem_map_of_mem Message.id (List.getElem?_mem h)
          have hne : ¬m0.id = m.id := by
            intro hc
            rw [hc] at hnd
            exact hnd.1 hmem
          have hr : posOf m.id rest = some j := ih j (by simpa [idsOf] using hnd.2) h
          simp [posOf, hne, hr]

/-! ### `insertIndices` (the `update_indices` loop) -/

theorem hmGet_insertIndices (msgs : List Message) (hnd : (idsOf msgs).Nodup)
    (idx : List (String × Nat)) (p : Nat) (k : String) :
    hmGet (insertIndices idx msgs p) k =
      match posOf k msgs with
      | some i => some (p + i)
      | none => hmGet idx k := by
  induction msgs generalizing idx p with
  | nil => simp [insertIndices, posOf]
  | cons m rest ih =>
      simp only [idsOf, List.map_cons, List.nodup_cons] at hnd
      simp only [insertIndices]
      rw [ih (by simpa [idsOf] using hnd.2) (hmInsert idx m.id p) (p + 1)]
      by_cases hm : m.id = k
      · subst hm
        have hnone : posOf m.id rest = none :=
          (posOf_eq_none_iff _ _).mpr (by simpa [idsOf] using hnd.1)
        simp [posOf, hnone, hmGet_hmInsert]
      · cases hp : posOf k rest with
        | none => simp [posOf, hm, hp, hmGet_hmInsert, Ne.symm hm]
        | some j =>
            simp only [posOf, if_neg hm, hp, Option.map_some']
            congr 1
            omega

theorem knodup_insertIndices (msgs : List Message) (idx : List (String × Nat)) (p : Nat)
    (h : (idx.map Prod.fst).Nodup) : ((insertIndices idx msgs p).map Prod.fst).Nodup := by
  induction msgs generalizing idx p with
  | nil => simpa [insertIndices] using h
  | cons m rest ih =>
      simp only [insertIndices]
      exact ih _ _ (knodup_hmInsert _ _ _ h)

/-! ### Invariant basics and the behaviour of `get` -/

theorem trackerInv_new (n : Nat) : TrackerInv (MessageStore.new n) := by
  refine ⟨by simp [MessageStore.new, idsOf], by simp [MessageStore.new], ?_,
    by simp [MessageStore.new]⟩
  intro k
  simp [MessageStore.new, hmGet, posOf]

theorem get_eq_of_posOf_none {s : MessageStore} (hs : TrackerInv s) {k : String}
    (h : posOf k s.queue = none) : s.get k = Except.ok none := by
  unfold MessageStore.get
  rw [hs.corr k, h]

theorem get_eq_of_posOf_some {s : MessageStore} (hs : TrackerInv s) {k : String} {i : Nat}
    (h : posOf k s.queue = some i) :
    ∃ m, s.queue[i]? = some m ∧ m.id = k ∧ s.get k = Except.ok (some m) := by
  obtain ⟨m, hgm, hid⟩ := posOf_getElem? k s.queue i h
  refine ⟨m, hgm, hid, ?_⟩
  unfold MessageStore.get
  rw [hs.corr k, h]
  simp [hgm, hid]

/-! ### Behaviour of `add` and `delete` on invariant-respecting states -/

theorem add_eq_of_mem {s : MessageStore} (hs : TrackerInv s) {m : Message} {i : Nat}
    (h : posOf m.id s.queue = some i) : s.add m = Except.ok s := by
  obtain ⟨m', _, _, hget⟩ := get_eq_of_posOf_some hs h
  unfold MessageStore.add
  rw [hget]

theorem add_eq_append {s : MessageStore} (hs : TrackerInv s) {m : Message}
    (h : posOf m.id s.queue = none) (hlen : s.queue.length < s.fifo_size) :
    s.add m = Except.ok { queue := s.queue ++ [m],
                          index := hmInsert s.index m.id s.queue.length,
                          fifo_size := s.fifo_size } := by
  have hget := get_eq_of_posOf_none hs h
  have hc : ¬((s.queue ++ [m]).length > s.fifo_size) := by
    simp only [List.length_append, List.length_cons, List.length_nil]
    omega
  unfold MessageStore.add
  rw [hget]
  simp only [hc, if_false, List.length_append, List.length_cons, List.length_nil,
    Nat.add_sub_cancel]
  rw [if_neg (by omega)]

theorem add_eq_evict {s : MessageStore} (hs : TrackerInv s) {m h0 : Message}
    {t : List Message} (h : posOf m.id s.queue = none) (hlen : s.fifo_size ≤ s.queue.length)
    (hq : s.queue ++ [m] = h0 :: t) :
    s.add m = Except.ok { queue := t,
                          index := insertIndices (hmRemove s.index h0.id) t 0,
                          fifo_size := s.fifo_size } := by
  have hget := get_eq_of_posOf_none hs h
  have hc : (s.queue ++ [m]).length > s.fifo_size := by
    simp only [List.length_append, List.length_cons, List.length_nil]
    omega
  unfold MessageStore.add
  rw [hget]
  simp only [hc, if_true, hq, MessageStore.update_indices, List.drop_zero]
  rw [if_pos (by rw [← hq]; exact hc)]

theorem delete_eq_of_posOf_none {s : MessageStore} (hs : TrackerInv s) {d : String}
    (h : posOf d s.queue = none) : s.delete d = Except.ok (none, s) := by
  unfold MessageStore.delete
  rw [hs.corr d, h]

theorem delete_eq_of_posOf_some {s : MessageStore} (hs : TrackerInv s) {d : String} {i : Nat}
    (h : posOf d s.queue = some i) :
    ∃ m, s.queue[i]? = some m ∧ m.id = d ∧
      s.delete d = Except.ok (some m, { queue := s.queue.eraseIdx i,
                                        index := insertIndices (hmRemove s.index d) (s.queue.drop (i + 1)) i,
                                        fifo_size := s.fifo_size }) := by
  obtain ⟨m, hgm, hid⟩ := posOf_getElem? d s.queue i h
  refine ⟨m, hgm, hid, ?_⟩
  have hdrop : (s.queue.eraseIdx i).drop i = s.queue.drop (i + 1) := by
    rw [List.eraseIdx_eq_take_drop_succ]
    have hlt := posOf_lt_length d s.queue i h
    have hti : (s.queue.take i).length = i := by
      rw [List.length_take]
      omega
    rw [List.drop_left' hti]
  unfold MessageStore.delete
  rw [hs.corr d, h]
  simp only [hgm, MessageStore.update_indices, hdrop]

/-! ### Invariant preservation -/

theorem trackerInv_append {s : MessageStore} (hs : TrackerInv s) {m : Message}
    (h : posOf m.id s.queue = none) (hlen : s.queue.length < s.fifo_size) :
    TrackerInv { queue := s.queue ++ [m],
                 index := hmInsert s.index m.id s.queue.length,
                 fifo_size := s.fifo_size } := by
  have hnotmem : m.id ∉ idsOf s.queue := (posOf_eq_none_iff _ _).mp h
  refine ⟨?_, ?_, ?_, ?_⟩
  · simp only [idsOf, List.map_append, List.map_cons, List.map_nil]
    rw [List.nodup_append]
    refine ⟨hs.qnodup, List.nodup_singleton _, ?_⟩
    intro a ha hb
    simp only [List.mem_singleton] at hb
    subst hb
    exact hnotmem ha
  · exact knodup_hmInsert _ _ _ hs.knodup
  · intro k
    show hmGet (hmInsert s.index m.id s.queue.length) k = posOf k (s.queue ++ [m])
    rw [hmGet_hmInsert]
    by_cases hk : k = m.id
    · subst hk
      rw [if_pos rfl, posOf_append_none _ _ _ h]
      simp [posOf]
    · rw [if_neg hk, hs.corr k]
      cases hp : posOf k s.queue with
      | some j => rw [posOf_append_some _ _ _ _ hp]
      | none =>
          rw [posOf_append_none _ _ _ hp]
          have hmk : ¬(m.id = k) := fun hc => hk hc.symm
          simp [posOf, hmk]
  · simp only [List.length_append, List.length_cons, List.length_nil]
    omega

theorem trackerInv_evict {s : MessageStore} (hs : TrackerInv s) {m h0 : Message}
    {t : List Message} (h : posOf m.id s.queue = none)
    (hq : s.queue ++ [m] = h0 :: t) :
    TrackerInv { queue := t,
                 index := insertIndices (hmRemove s.index h0.id) t 0,
                 fifo_size := s.fifo_size } := by
  have hnotmem : m.id ∉ idsOf s.queue := (posOf_eq_none_iff _ _).mp h
  have hnd1 : (idsOf (h0 :: t)).Nodup := by
    rw [← hq]
    simp only [idsOf, List.map_append, List.map_cons, List.map_nil]
    rw [List.nodup_append]
    refine ⟨hs.qnodup, List.nodup_singleton _, ?_⟩
    intro a ha hb
    simp only [List.mem_singleton] at hb
    subst hb
    exact hnotmem ha
  simp only [idsOf, List.map_cons, List.nodup_cons] at hnd1
  have hndt : (idsOf t).Nodup := hnd1.2
  refine ⟨hndt, ?_, ?_, ?_⟩
  · exact knodup_insertIndices _ _ _
      (List.Nodup.sublist (keys_hmRemove_sublist _ _) hs.knodup)
  · intro k
    show hmGet (insertIndices (hmRemove s.index h0.id) t 0) k = posOf k t
    rw [hmGet_insertIndices _ hndt]
    cases hp : posOf k t with
    | some i => simp
    | none =>
        simp only []
        by_cases hk : k = h0.id
        · subst hk
          exact hmGet_hmRemove_self _ _ hs.knodup
        · rw [hmGet_hmRemove_ne _ _ _ hk, hs.corr k]
          rw [posOf_eq_none_iff]
          intro hmem
          have hmem2 : k ∈ idsOf (s.queue ++ [m]) := by
            simp only [idsOf, List.map_append] at hmem ⊢
            exact List.mem_append_left _ hmem
          rw [hq] at hmem2
          simp only [idsOf, List.map_cons, List.mem_cons] at hmem2
          rcases hmem2 with hmem2 | hmem2
          · exact hk hmem2
          · exact (posOf_eq_none_iff _ _).mp hp hmem2
  · have hlen := congrArg List.length hq
    simp only [List.length_append, List.length_cons, List.length_nil] at hlen
    have := hs.cap
    show t.length ≤ s.fifo_size
    omega

theorem trackerInv_delete {s : MessageStore} (hs : TrackerInv s) {d : String} {i : Nat}
    (h : posOf d s.queue = some i) :
    TrackerInv { queue := s.queue.eraseIdx i,
                 index := insertIndices (hmRemove s.index d) (s.queue.drop (i + 1)) i,
                 fifo_size := s.fifo_size } := by
  have hlt := posOf_lt_length d s.queue i h
  obtain ⟨m0, hm0, hm0id⟩ := posOf_getElem? d s.queue i h
  obtain ⟨hblt, hbeq⟩ := List.getElem?_eq_some.mp hm0
  have hdecomp : s.queue = s.queue.take i ++ m0 :: s.queue.drop (i + 1) := by
    conv_lhs => rw [← List.take_append_drop i s.queue]
    congr 1
    rw [List.drop_eq_getElem_cons hlt, hbeq]
  have htlen : (s.queue.take i).length = i := by
    rw [List.length_take]
    omega
  have herase : s.queue.eraseIdx i = s.queue.take i ++ s.queue.drop (i + 1) :=
    List.eraseIdx_eq_take_drop_succ _ _
  have hnd2 : (idsOf (s.queue.take i) ++ (d :: idsOf (s.queue.drop (i + 1)))).Nodup := by
    have hids : idsOf s.queue =
        idsOf (s.queue.take i) ++ (d :: idsOf (s.queue.drop (i + 1))) := by
      conv_lhs => rw [hdecomp]
      simp [idsOf, hm0id]
    rw [← hids]
    exact hs.qnodup
  rw [List.nodup_append] at hnd2
  obtain ⟨ndtake, ndcons, disj⟩ := hnd2
  rw [List.nodup_cons] at ndcons
  have hndt : (idsOf (s.queue.drop (i + 1))).Nodup := ndcons.2
  refine ⟨?_, ?_, ?_, ?_⟩
  · exact List.Nodup.sublist (List.Sublist.map _ (List.eraseIdx_sublist _ _)) hs.qnodup
  · exact knodup_insertIndices _ _ _
      (List.Nodup.sublist (keys_hmRemove_sublist _ _) hs.knodup)
  · intro k
    show hmGet (insertIndices (hmRemove s.index d) (s.queue.drop (i + 1)) i) k =
      posOf k (s.queue.eraseIdx i)
    rw [hmGet_insertIndices _ hndt, herase]
    cases hp2 : posOf k (s.queue.drop (i + 1)) with
    | some j =>
        have hktake : posOf k (s.queue.take i) = none := by
          rw [posOf_eq_none_iff]
          intro hmem
          have hkdrop : k ∈ idsOf (s.queue.drop (i + 1)) := by
            obtain ⟨mm, hmm, hmmid⟩ := posOf_getElem? _ _ _ hp2
            rw [← hmmid]
            exact List.mem_map_of_mem Message.id (List.getElem?_mem hmm)
          exact disj hmem (List.mem_cons_of_mem _ hkdrop)
        rw [posOf_append_none _ _ _ hktake, hp2, htlen]
        simp [Nat.add_comm]
    | none =>
        cases hp1 : posOf k (s.queue.take i) with
        | some j =>
            rw [posOf_append_some _ _ _ _ hp1]
            have hkmem : k ∈ idsOf (s.queue.take i) := by
              by_contra hc
              rw [← posOf_eq_none_iff] at hc
              rw [hc] at hp1
              exact Option.noConfusion hp1
            have hkd : k ≠ d := by
              intro hc
              subst hc
              exact disj hkmem (List.mem_cons_self _ _)
            rw [hmGet_hmRemove_ne _ _ _ hkd, hs.corr k]
            conv_lhs => rw [← List.take_append_drop i s.queue]
            rw [posOf_append_some _ _ _ _ hp1]
        | none =>
            rw [posOf_append_none _ _ _ hp1, hp2]
            simp only [Option.map_none']
            by_cases hkd : k = d
            · subst hkd
              exact hmGet_hmRemove_self _ _ hs.knodup
            · rw [hmGet_hmRemove_ne _ _ _ hkd, hs.corr k]
              rw [posOf_eq_none_iff]
              intro hmem
              rw [hdecomp] at hmem
              simp only [idsOf, List.map_append, List.map_cons, List.mem_append,
                List.mem_cons, hm0id] at hmem
              rcases hmem with hmem | hmem | hmem
              · exact (posOf_eq_none_iff _ _).mp hp1 (by simpa [idsOf] using hmem)
              · exact hkd hmem
              · exact (posOf_eq_none_iff _ _).mp hp2 (by simpa [idsOf] using hmem)
  · show (s.queue.eraseIdx i).length ≤ s.fifo_size
    have := hs.cap
    rw [herase]
    simp only [List.length_append, List.length_take, List.length_drop]
    omega

/-! ### Every reachable state satisfies the invariants -/

theorem trackerInv_reachable {s : MessageStore} (h : Reachable s) : TrackerInv s := by
  induction h with
  | new_tracker n => exact trackerInv_new n
  | @add_step s0 s1 m hr heq ih =>
      cases hp : posOf m.id s0.queue with
      | some i =>
          rw [add_eq_of_mem ih hp] at heq
          injection heq with heq
          rw [← heq]
          exact ih
      | none =>
          by_cases hlen : s0.queue.length < s0.fifo_size
          · rw [add_eq_append ih hp hlen] at heq
            injection heq with heq
            rw [← heq]
            exact trackerInv_append ih hp hlen
          · cases hq : s0.queue ++ [m] with
            | nil => simp at hq
            | cons h0 t =>
                rw [add_eq_evict ih hp (by omega) hq] at heq
                injection heq with heq
                rw [← heq]
                exact trackerInv_evict ih hp hq
  | @delete_step s0 s1 id r hr heq ih =>
      cases hp : posOf id s0.queue with
      | none =>
          rw [delete_eq_of_posOf_none ih hp] at heq
          injection heq with heq
          injection heq with heq1 heq2
          rw [← heq2]
          exact ih
      | some i =>
          obtain ⟨m0, hm0, hm0id, heq2⟩ := delete_eq_of_posOf_some ih hp
          rw [heq2] at heq
          injection heq with heq
          injection heq with heq1 heq3
          rw [← heq3]
          exact trackerInv_delete ih hp

/-! ### Totality: no reachable operation can hit a panic -/

theorem add_total {s : MessageStore} (hs : TrackerInv s) (m : Message) :
    ∃ s', s.add m = Except.ok s' := by
  cases hp : posOf m.id s.queue with
  | some i => exact ⟨s, add_eq_of_mem hs hp⟩
  | none =>
      by_cases hlen : s.queue.length < s.fifo_size
      · exact ⟨_, add_eq_append hs hp hlen⟩
      · cases hq : s.queue ++ [m] with
        | nil => simp at hq
        | cons h0 t => exact ⟨_, add_eq_evict hs hp (by omega) hq⟩

theorem delete_total {s : MessageStore} (hs : TrackerInv s) (d : String) :
    ∃ r s', s.delete d = Except.ok (r, s') := by
  cases hp : posOf d s.queue with
  | none => exact ⟨none, s, delete_eq_of_posOf_none hs hp⟩
  | some i =>
      obtain ⟨m, _, _, heq⟩ := delete_eq_of_posOf_some hs hp
      exact ⟨some m, _, heq⟩

theorem get_total {s : MessageStore} (hs : TrackerInv s) (k : String) :
    ∃ r, s.get k = Except.ok r := by
  cases hp : posOf k s.queue with
  | none => exact ⟨none, get_eq_of_posOf_none hs hp⟩
  | some i =>
      obtain ⟨m, _, _, hg⟩ := get_eq_of_posOf_some hs hp
      exact ⟨some m, hg⟩

/-! ### The index has exactly one entry per queued message -/

theorem index_length_of_inv {s : MessageStore} (hs : TrackerInv s) :
    s.index.length = s.queue.length := by
  have hmemiff : ∀ k, k ∈ s.index.map Prod.fst ↔ k ∈ idsOf s.queue := by
    intro k
    constructor
    · intro hk
      by_contra hq
      have hnone : posOf k s.queue = none := (posOf_eq_none_iff _ _).mpr hq
      have h2 : hmGet s.index k = none := by rw [hs.corr k, hnone]
      exact (hmGet_eq_none_iff _ _).mp h2 hk
    · intro hk
      by_contra hm
      have h2 : hmGet s.index k = none := (hmGet_eq_none_iff _ _).mpr hm
      rw [hs.corr k] at h2
      exact (posOf_eq_none_iff _ _).mp h2 hk
  have h1 : List.Subperm (s.index.map Prod.fst) (idsOf s.queue) :=
    List.Nodup.subperm hs.knodup (fun a ha => (hmemiff a).mp ha)
  have h2 : List.Subperm (idsOf s.queue) (s.index.map Prod.fst) :=
    List.Nodup.subperm hs.qnodup (fun a ha => (hmemiff a).mpr ha)
  have h3 := h1.length_le
  have h4 := h2.length_le
  have h5 : (s.index.map Prod.fst).length = s.index.length := by simp
  have h6 : (idsOf s.queue).length = s.queue.length := by simp [idsOf]
  omega

/-! ### Runs of fresh `add` calls -/

theorem reachable_addAll {s s' : MessageStore} (msgs : List Message)
    (hr : Reachable s) (h : addAll s msgs = Except.ok s') : Reachable s' := by
  induction msgs generalizing s with
  | nil =>
      simp only [addAll] at h
      injection h with h
      rw [← h]
      exact hr
  | cons m rest ih =>
      simp only [addAll] at h
      cases ha : s.add m with
      | error e => rw [ha] at h; exact Except.noConfusion h
      | ok s1 =>
          rw [ha] at h
          exact ih (Reachable.add_step m hr ha) h

theorem addAll_fresh (msgs : List Message) :
    ∀ s : MessageStore, TrackerInv s → (idsOf (s.queue ++ msgs)).Nodup →
      ∃ s', addAll s msgs = Except.ok s' ∧ s'.fifo_size = s.fifo_size ∧
        s'.queue = (s.queue ++ msgs).drop ((s.queue ++ msgs).length - s.fifo_size) := by
  induction msgs with
  | nil =>
      intro s hs _
      refine ⟨s, rfl, rfl, ?_⟩
      rw [List.append_nil, Nat.sub_eq_zero_of_le hs.cap, List.drop_zero]
  | cons m rest ih =>
      intro s hs hnd
      have hids : idsOf (s.queue ++ m :: rest) = idsOf s.queue ++ (m.id :: idsOf rest) := by
        simp [idsOf]
      have hnd2 : (idsOf s.queue ++ (m.id :: idsOf rest)).Nodup := by
        rw [← hids]
        exact hnd
      rw [List.nodup_append] at hnd2
      obtain ⟨hndq, hndcons, hdisj⟩ := hnd2
      have hfresh : posOf m.id s.queue = none := by
        rw [posOf_eq_none_iff]
        intro hc
        exact hdisj hc (List.mem_cons_self _ _)
      by_cases hlen : s.queue.length < s.fifo_size
      · have ha := add_eq_append hs hfresh hlen
        have hs1 := trackerInv_append hs hfresh hlen
        have hnd3 : (idsOf ((s.queue ++ [m]) ++ rest)).Nodup := by
          rw [List.append_assoc, List.singleton_append]
          exact hnd
        obtain ⟨s', hrun, hfifo, hqueue⟩ := ih _ hs1 hnd3
        dsimp only at hrun hfifo hqueue
        refine ⟨s', ?_, hfifo, ?_⟩
        · simp only [addAll, ha]
          exact hrun
        · rw [hqueue, List.append_assoc, List.singleton_append]
      · have hlen2 : s.fifo_size ≤ s.queue.length := by omega
        cases hq : s.queue ++ [m] with
        | nil => simp at hq
        | cons h0 t =>
            have ha := add_eq_evict hs hfresh hlen2 hq
            have hs1 := trackerInv_evict hs hfresh hq
            have hlist : s.queue ++ m :: rest = h0 :: (t ++ rest) := by
              rw [← List.singleton_append, ← List.append_assoc, hq, List.cons_append]
            have hnd4 : (idsOf (t ++ rest)).Nodup := by
              have hco : (idsOf (h0 :: (t ++ rest))).Nodup := by
                rw [← hlist]
                exact hnd
              simp only [idsOf, List.map_cons, List.nodup_cons] at hco
              exact hco.2
            obtain ⟨s', hrun, hfifo, hqueue⟩ := ih _ hs1 hnd4
            dsimp only at hrun hfifo hqueue
            refine ⟨s', ?_, hfifo, ?_⟩
            · simp only [addAll, ha]
              exact hrun
            · rw [hqueue, hlist]
              have hlq := congrArg List.length hq
              simp only [List.length_append, List.length_cons, List.length_nil] at hlq
              have hcap := hs.cap
              have hamount : (h0 :: (t ++ rest)).length - s.fifo_size
                  = ((t ++ rest).length - s.fifo_size) + 1 := by
                simp only [List.length_cons, List.length_append]
                omega
              rw [hamount, List.drop_succ_cons]

/-! ### Decomposition of a queue around a found position -/

theorem queue_decomp (l : List Message) (k : String) (i : Nat) (m0 : Message)
    (h : posOf k l = some i) (hm0 : l[i]? = some m0) :
    l = l.take i ++ m0 :: l.drop (i + 1) := by
  have hlt := posOf_lt_length k l i h
  obtain ⟨hblt, hbeq⟩ := List.getElem?_eq_some.mp hm0
  conv_lhs => rw [← List.take_append_drop i l]
  congr 1
  rw [List.drop_eq_getElem_cons hlt, hbeq]

theorem idsOf_decomp (l : List Message) (k : String) (i : Nat)
    (h : posOf k l = some i) :
    idsOf l = idsOf (l.take i) ++ k :: idsOf (l.drop (i + 1)) := by
  obtain ⟨m0, hm0, hm0id⟩ := posOf_getElem? k l i h
  conv_lhs => rw [queue_decomp l k i m0 h hm0]
  simp [idsOf, hm0id]

theorem posOf_eraseIdx_self {l : List Message} {k : String} {i : Nat}
    (hnd : (idsOf l).Nodup) (h : posOf k l = some i) :
    posOf k (l.eraseIdx i) = none := by
  have hdec := idsOf_decomp l k i h
  rw [hdec, List.nodup_append, List.nodup_cons] at hnd
  obtain ⟨hndtake, ⟨hkdrop, hnddrop⟩, hdisj⟩ := hnd
  rw [posOf_eq_none_iff, List.eraseIdx_eq_take_drop_succ]
  intro hmem
  simp only [idsOf, List.map_append, List.mem_append] at hmem
  rcases hmem with hmem | hmem
  · exact hdisj (by simpa [idsOf] using hmem) (List.mem_cons_self _ _)
  · exact hkdrop (by simpa [idsOf] using hmem)

/-! ### Reachability of the concrete witness states -/

theorem wit5_reachable : Reachable wit5 :=
  Reachable.add_step (mkMsg 0) (Reachable.new_tracker 5) rfl

theorem wit6_reachable : Reachable wit6 :=
  reachable_addAll witMsgs6 (Reachable.new_tracker 5) rfl

theorem wit0_reachable : Reachable wit0 :=
  reachable_addAll [mkMsg 0, mkMsg 1] (Reachable.new_tracker 0) rfl

/-! ### Claim theorems -/

/-- C1: in every reachable tracker state the structural invariants hold:
the index has exactly as many entries as the queue, every queued message's id
is indexed at its queue position and no other id maps to that position, and
no two queued messages share an id. -/
theorem tracker_structural_invariants {s : MessageStore} (hr : Reachable s) :
    s.index.length = s.queue.length ∧
    (∀ p m, s.queue[p]? = some m →
      hmGet s.index m.id = some p ∧ ∀ k, hmGet s.index k = some p → k = m.id) ∧
    (idsOf s.queue).Nodup := by
  have hs := trackerInv_reachable hr
  refine ⟨index_length_of_inv hs, ?_, hs.qnodup⟩
  intro p m hget
  have h1 : posOf m.id s.queue = some p := getElem?_posOf _ _ _ hs.qnodup hget
  refine ⟨by rw [hs.corr m.id, h1], ?_⟩
  intro k hk
  rw [hs.corr k] at hk
  obtain ⟨m', hm', hid⟩ := posOf_getElem? _ _ _ hk
  rw [hget] at hm'
  injection hm' with hm'
  rw [← hid, hm']

theorem tracker_structural_invariants_witness :
    wit5.index.length = wit5.queue.length ∧
    (∀ p m, wit5.queue[p]? = some m →
      hmGet wit5.index m.id = some p ∧ ∀ k, hmGet wit5.index k = some p → k = m.id) ∧
    (idsOf wit5.queue).Nodup :=
  tracker_structural_invariants wit5_reachable

/-- C3: in every reachable tracker state, `get_all` returns at most
`fifo_size` messages. -/
theorem capacity_bound {s : MessageStore} (hr : Reachable s) :
    s.get_all.length ≤ s.fifo_size :=
  (trackerInv_reachable hr).cap

theorem capacity_bound_witness : wit6.get_all.length ≤ wit6.fifo_size :=
  capacity_bound wit6_reachable

/-- C4: adding a message whose id is already present leaves the state
completely unchanged (even when the new message's peer or payload differ),
so order, length and stored content are untouched and the entry does not
move to the back. -/
theorem duplicate_add_is_noop {s : MessageStore} (hr : Reachable s) (m : Message)
    (hmem : m.id ∈ idsOf s.queue) : s.add m = Except.ok s := by
  have hs := trackerInv_reachable hr
  cases hp : posOf m.id s.queue with
  | none => exact absurd hmem ((posOf_eq_none_iff _ _).mp hp)
  | some i => exact add_eq_of_mem hs hp

theorem duplicate_add_is_noop_witness :
    (Message.id { id := "0", peer_id := "peerB", data := [9] } ∈ idsOf wit5.queue) ∧
    wit5.add { id := "0", peer_id := "peerB", data := [9] } = Except.ok wit5 :=
  ⟨by decide, duplicate_add_is_noop wit5_reachable _ (by decide)⟩

/-- C7: in every reachable state `get` never reaches a panic branch, any
message it returns carries exactly the queried id, and an id that is present
in the queue is never reported as absent.  (`get` takes the state immutably,
so it cannot change it.) -/
theorem get_consistency {s : MessageStore} (hr : Reachable s) (id : String) :
    (∀ e, s.get id ≠ Except.error e) ∧
    (∀ m, s.get id = Except.ok (some m) → m.id = id) ∧
    (id ∈ idsOf s.queue → ∃ m, s.get id = Except.ok (some m)) := by
  have hs := trackerInv_reachable hr
  cases hp : posOf id s.queue with
  | none =>
      have hg := get_eq_of_posOf_none hs hp
      refine ⟨?_, ?_, ?_⟩
      · intro e hC
        rw [hg] at hC
        exact Except.noConfusion hC
      · intro m hC
        rw [hg] at hC
        injection hC with hC
        exact Option.noConfusion hC
      · intro hmem
        exact absurd hmem ((posOf_eq_none_iff _ _).mp hp)
  | some i =>
      obtain ⟨m, hm, hmid, hg⟩ := get_eq_of_posOf_some hs hp
      refine ⟨?_, ?_, fun _ => ⟨m, hg⟩⟩
      · intro e hC
        rw [hg] at hC
        exact Except.noConfusion hC
      · intro m' hC
        rw [hg] at hC
        injection hC with hC
        injection hC with hC
        rw [← hC]
        exact hmid

theorem get_consistency_witness :
    (∀ e, wit5.get "0" ≠ Except.error e) ∧
    (∀ m, wit5.get "0" = Except.ok (some m) → m.id = "0") ∧
    ("0" ∈ idsOf wit5.queue → ∃ m, wit5.get "0" = Except.ok (some m)) :=
  get_consistency wit5_reachable "0"

/-- C8: on every reachable state, `delete` and `get` of an absent id return
an explicit absence and leave the state unchanged, and `add`/`delete` on any
well-formed input always produce a value rather than an error. -/
theorem absent_id_total {s : MessageStore} (hr : Reachable s) :
    (∀ id, id ∉ idsOf s.queue →
      s.delete id = Except.ok (none, s) ∧ s.get id = Except.ok none) ∧
    (∀ m, ∃ s', s.add m = Except.ok s') ∧
    (∀ id, ∃ r s', s.delete id = Except.ok (r, s')) := by
  have hs := trackerInv_reachable hr
  refine ⟨?_, fun m => add_total hs m, fun id => delete_total hs id⟩
  intro id hmem
  have hp : posOf id s.queue = none := (posOf_eq_none_iff _ _).mpr hmem
  exact ⟨delete_eq_of_posOf_none hs hp, get_eq_of_posOf_none hs hp⟩

theorem absent_id_total_witness :
    (∀ id, id ∉ idsOf wit5.queue →
      wit5.delete id = Except.ok (none, wit5) ∧ wit5.get id = Except.ok none) ∧
    (∀ m, ∃ s', wit5.add m = Except.ok s') ∧
    (∀ id, ∃ r s', wit5.delete id = Except.ok (r, s')) :=
  absent_id_total wit5_reachable

/-- C9: in every reachable state every position stored in the index is in
bounds for the queue, and consequently the `panic!("It should never happen")`
branch of `delete` can never run. -/
theorem index_in_bounds {s : MessageStore} (hr : Reachable s) :
    (∀ k i, hmGet s.index k = some i → i < s.queue.length) ∧
    (∀ d e, s.delete d ≠ Except.error e) := by
  have hs := trackerInv_reachable hr
  refine ⟨?_, ?_⟩
  · intro k i hk
    rw [hs.corr k] at hk
    exact posOf_lt_length _ _ _ hk
  · intro d e hC
    obtain ⟨r, s', heq⟩ := delete_total hs d
    rw [heq] at hC
    exact Except.noConfusion hC

theorem index_in_bounds_witness :
    (∀ k i, hmGet wit6.index k = some i → i < wit6.queue.length) ∧
    (∀ d e, wit6.delete d ≠ Except.error e) :=
  index_in_bounds wit6_reachable

/-- C10: a tracker constructed with capacity 0 stays empty under every
sequence of operations: each `add` pushes the message and immediately evicts
it, so `get_all` is always empty and `get` always reports absence. -/
theorem capacity_zero_empty {s : MessageStore} (hr : Reachable s)
    (hc : s.fifo_size = 0) :
    s.get_all = [] ∧ (∀ id, s.get id = Except.ok none) := by
  have hs := trackerInv_reachable hr
  have hq : s.queue = [] := by
    rw [← List.length_eq_zero]
    have := hs.cap
    omega
  refine ⟨hq, ?_⟩
  intro id
  apply get_eq_of_posOf_none hs
  rw [hq]
  rfl

theorem capacity_zero_empty_witness :
    wit0.fifo_size = 0 ∧
    (wit0.get_all = [] ∧ ∀ id, wit0.get id = Except.ok none) :=
  ⟨rfl, capacity_zero_empty wit0_reachable rfl⟩

/-- C2: adding pairwise-distinct messages to a fresh capacity-`c` tracker
keeps exactly the last `c` arrivals in arrival order: `get_all` is the suffix
`msgs.drop (msgs.length - c)` (the whole sequence when it fits within the
capacity), and every earlier, evicted message has disappeared from `get`. -/
theorem fifo_order_and_eviction (msgs : List Message) (c : Nat)
    (hnd : (idsOf msgs).Nodup) :
    ∃ s, addAll (MessageStore.new c) msgs = Except.ok s ∧
      s.get_all = msgs.drop (msgs.length - c) ∧
      ∀ m ∈ msgs.take (msgs.length - c), s.get m.id = Except.ok none := by
  obtain ⟨s, hrun, hfifo, hqueue⟩ := addAll_fresh msgs (MessageStore.new c)
    (trackerInv_new c) (by simpa [MessageStore.new] using hnd)
  have hqueue2 : s.queue = msgs.drop (msgs.length - c) := by
    rw [hqueue]
    simp [MessageStore.new]
  refine ⟨s, hrun, hqueue2, ?_⟩
  intro m hm
  have hs := trackerInv_reachable (reachable_addAll msgs (Reachable.new_tracker c) hrun)
  apply get_eq_of_posOf_none hs
  rw [posOf_eq_none_iff, hqueue2]
  intro hmemdrop
  have hsplit : idsOf msgs =
      idsOf (msgs.take (msgs.length - c)) ++ idsOf (msgs.drop (msgs.length - c)) := by
    conv_lhs => rw [← List.take_append_drop (msgs.length - c) msgs]
    simp [idsOf]
  rw [hsplit, List.nodup_append] at hnd
  exact hnd.2.2 (List.mem_map_of_mem Message.id hm) hmemdrop

theorem fifo_order_and_eviction_witness :
    (idsOf witMsgs9).Nodup ∧
    ∃ s, addAll (MessageStore.new 5) witMsgs9 = Except.ok s ∧
      s.get_all = witMsgs9.drop (witMsgs9.length - 5) ∧
      ∀ m ∈ witMsgs9.take (witMsgs9.length - 5), s.get m.id = Except.ok none :=
  ⟨by decide, fifo_order_and_eviction witMsgs9 5 (by decide)⟩

/-- C5: deleting a present id returns exactly the stored message; afterwards
that id is absent from `get`, the queue is one entry shorter with the
relative order of the remaining entries preserved, entries before the removed
position keep their recorded positions, and entries after it shift down by
one. -/
theorem delete_present_consistency {s : MessageStore} (hr : Reachable s)
    {d : String} {i : Nat} (hpos : posOf d s.queue = some i) :
    ∃ m s', s.queue[i]? = some m ∧ s.delete d = Except.ok (some m, s') ∧
      s'.get d = Except.ok none ∧
      s'.get_all.length + 1 = s.get_all.length ∧
      s'.get_all = s.get_all.eraseIdx i ∧
      (∀ j mj, j < i → s.queue[j]? = some mj →
        s'.queue[j]? = some mj ∧ hmGet s'.index mj.id = some j) ∧
      (∀ j mj, i < j → s.queue[j]? = some mj →
        s'.queue[j - 1]? = some mj ∧ hmGet s'.index mj.id = some (j - 1)) := by
  have hs := trackerInv_reachable hr
  have hlt := posOf_lt_length d s.queue i hpos
  have htl : (s.queue.take i).length = i := by
    rw [List.length_take]
    omega
  obtain ⟨m, hm, hmid, heq⟩ := delete_eq_of_posOf_some hs hpos
  have hs1 := trackerInv_delete hs hpos
  refine ⟨m, _, hm, heq, ?_, ?_, ?_, ?_, ?_⟩
  · exact get_eq_of_posOf_none hs1 (posOf_eraseIdx_self hs.qnodup hpos)
  · show (s.queue.eraseIdx i).length + 1 = s.queue.length
    rw [List.length_eraseIdx_of_lt hlt]
    omega
  · rfl
  · intro j mj hj hgj
    have hq' : (s.queue.eraseIdx i)[j]? = some mj := by
      rw [List.eraseIdx_eq_take_drop_succ]
      rw [List.getElem?_append_left (by omega : j < (s.queue.take i).length)]
      rw [List.getElem?_take, if_pos hj]
      exact hgj
    refine ⟨hq', ?_⟩
    rw [hs1.corr mj.id]
    exact getElem?_posOf _ _ _ hs1.qnodup hq'
  · intro j mj hj hgj
    have hq' : (s.queue.eraseIdx i)[j - 1]? = some mj := by
      rw [List.eraseIdx_eq_take_drop_succ]
      rw [List.getElem?_append_right (by omega : (s.queue.take i).length ≤ j - 1)]
      rw [htl, List.getElem?_drop]
      have harith : i + 1 + (j - 1 - i) = j := by omega
      rw [harith]
      exact hgj
    refine ⟨hq', ?_⟩
    rw [hs1.corr mj.id]
    exact getElem?_posOf _ _ _ hs1.qnodup hq'

theorem delete_present_consistency_witness :
    ∃ m s', wit5.queue[0]? = some m ∧ wit5.delete "0" = Except.ok (some m, s') ∧
      s'.get "0" = Except.ok none ∧
      s'.get_all.length + 1 = wit5.get_all.length ∧
      s'.get_all = wit5.get_all.eraseIdx 0 ∧
      (∀ j mj, j < 0 → wit5.queue[j]? = some mj →
        s'.queue[j]? = some mj ∧ hmGet s'.index mj.id = some j) ∧
      (∀ j mj, 0 < j → wit5.queue[j]? = some mj →
        s'.queue[j - 1]? = some mj ∧ hmGet s'.index mj.id = some (j - 1)) :=
  delete_present_consistency wit5_reachable (by decide)

/-- C6: deleting a present id and then adding a message with the same id
re-inserts it at the back of `get_all` (as a fresh arrival), not at its old
position: the final snapshot is the deleted-state order with the new message
appended. -/
theorem reinsert_after_delete {s : MessageStore} (hr : Reachable s)
    {d : String} {i : Nat} (hpos : posOf d s.queue = some i)
    (m : Message) (hmid : m.id = d) :
    ∃ rm s1 s2, s.delete d = Except.ok (some rm, s1) ∧
      s1.add m = Except.ok s2 ∧
      s2.get_all = s.get_all.eraseIdx i ++ [m] := by
  have hs := trackerInv_reachable hr
  have hlt := posOf_lt_length d s.queue i hpos
  obtain ⟨rm, hrm, hrmid, heq⟩ := delete_eq_of_posOf_some hs hpos
  have hs1 := trackerInv_delete hs hpos
  have hfresh : posOf m.id (s.queue.eraseIdx i) = none := by
    rw [hmid]
    exact posOf_eraseIdx_self hs.qnodup hpos
  have hlen : (s.queue.eraseIdx i).length < s.fifo_size := by
    rw [List.length_eraseIdx_of_lt hlt]
    have := hs.cap
    omega
  have ha := add_eq_append hs1 hfresh hlen
  exact ⟨rm, _, _, heq, ha, rfl⟩

theorem reinsert_after_delete_witness :
    ∃ rm s1 s2, wit6.delete "2" = Except.ok (some rm, s1) ∧
      s1.add (mkMsg 2) = Except.ok s2 ∧
      s2.get_all = wit6.get_all.eraseIdx 1 ++ [mkMsg 2] :=
  reinsert_after_delete wit6_reachable (by decide) (mkMsg 2) (by decide)
